import Mathlib

/-!
Verification of the perfarce Mercurial–Perforce bridge (`perfarce.py`).

The definitions below are a shallow embedding of the parts of the source
relevant to the pending-state store (`p4stat`), the push trimming and
validation logic (`p4client.pushcommon`), the changelist description
builder and revision-range marker codec (`parsenodes`), batched path
resolution (`p4client.run` / `p4client.where`), and the pull import loop.
Host-VCS services (repository DAG queries, file I/O) are passed in as
explicit function arguments; machine strings are modelled as `String` or
`List Char`.
-/

namespace Perfarce

/-- The pending-state store maps a revision identity (40-char hex string)
to an `Int` status: `-1` for submitted, otherwise the pending changelist
number.  The Python `dict` is modelled as an insertion-ordered
association list. -/
abbrev Store := List (String × Int)

/-- The `p4client.SUBMITTED` sentinel. -/
def SUBMITTED : Int := -1

/-- Association-list lookup, mirroring `self.p4stat.get(node, None)`. -/
def getp : Store → String → Option Int
  | [], _ => none
  | (a, b) :: t, n => if a = n then some b else getp t n

/-- Python dict assignment `d[k] = v` on an insertion-ordered list. -/
def setk : Store → String → Int → Store
  | [], k, v => [(k, v)]
  | (a, b) :: t, k, v => if a = k then (k, v) :: t else (a, b) :: setk t k v

/-- Python `del d[k]` (removes the unique binding of `k`). -/
def delk : Store → String → Store
  | [], _ => []
  | (a, b) :: t, n => if a = n then t else (a, b) :: delk t n

/-- `p4client.setpending`: a no-op (keeping the dirty flag accurate) when
the state is unchanged, deletion on `None`, update/insert otherwise. -/
def setpending (st : Store) (dirty : Bool) (n : String) (v : Option Int) : Store × Bool :=
  if getp st n = v then (st, dirty)
  else
    match v with
    | none => (delk st n, true)
    | some x => (setk st n x, true)

/-! ### Decimal codec (Python `str` / `int` on changelist numbers) -/

/-- The character for one decimal digit. -/
def digitChar (d : Nat) : Char := Char.ofNat (48 + d)

/-- Numeric value of a decimal digit character. -/
def charVal (c : Char) : Nat := c.toNat - 48

/-- Decimal digit test. -/
def isDig (c : Char) : Bool := ('0' ≤ c && c ≤ '9')

/-- Decimal rendering of a natural number (Python `str(n)` for `n ≥ 0`). -/
def natChars (n : Nat) : List Char :=
  if n = 0 then ['0'] else ((Nat.digits 10 n).map digitChar).reverse

/-- Python `int` on a string of decimal digits; `none` models `ValueError`. -/
def parseNat (cs : List Char) : Option Nat :=
  if cs ≠ [] ∧ cs.all isDig then some (Nat.ofDigits 10 (cs.reverse.map charVal)) else none

/-- Python `str` on an `Int`. -/
def intChars (v : Int) : List Char :=
  if v < 0 then '-' :: natChars v.natAbs else natChars v.toNat

/-- Python `int` on a possibly-signed decimal string. -/
def parseInt (cs : List Char) : Option Int :=
  if cs.head? = some '-' then (parseNat cs.tail).map (fun n => -(n : Int))
  else (parseNat cs).map (fun n => (n : Int))

/-! ### `_writep4stat` and `_readp4stat` -/

/-- `_writep4stat` status token: the literal `submitted` or the decimal
changelist number. -/
def stateChars (v : Int) : List Char :=
  if v = SUBMITTED then "submitted".data else intChars v

/-- One `_writep4stat` output line (without the trailing newline):
`<revisionId> <status>`. -/
def p4statLine (kv : String × Int) : List Char :=
  kv.1.data ++ ' ' :: stateChars kv.2

/-- `_writep4stat`: the full file content, one newline-terminated line
per tracked revision. -/
def writep4stat (st : Store) : List Char :=
  (st.map (fun kv => p4statLine kv ++ [ '\n' ])).flatten

/-- Python file line iteration: maximal chunks separated by newline, with
a final unterminated chunk kept and no empty chunk after a final
newline. -/
def splitNL : List Char → List (List Char)
  | [] => []
  | c :: cs =>
    if c = '\n' then [] :: splitNL cs
    else
      match splitNL cs with
      | [] => [[c]]
      | l :: ls => (c :: l) :: ls

/-- Python `str.strip`. -/
def stripChars (cs : List Char) : List Char :=
  ((cs.dropWhile Char.isWhitespace).reverse.dropWhile Char.isWhitespace).reverse

/-- Python `line.split(' ', 1)`; `none` when there is no space (the
subsequent `line[1]` would raise `IndexError`). -/
def splitSp : List Char → Option (List Char × List Char)
  | [] => none
  | c :: cs =>
    if c = ' ' then some ([], cs)
    else (splitSp cs).map (fun p => (c :: p.1, p.2))

/-- `_readp4stat` status parse: `startswith('s')` means submitted,
anything else goes through `int`. -/
def parseState (cs : List Char) : Option Int :=
  if cs.head? = some 's' then some SUBMITTED else parseInt cs

/-- Parse one `p4stat` line; `none` models a raised exception. -/
def parseLine (cs : List Char) : Option (String × Int) := do
  let p ← splitSp (stripChars cs)
  let v ← parseState p.2
  pure (String.mk p.1, v)

/-- The `_readp4stat` loop: entries inserted before the first malformed
line are kept, the exception ends the loop. -/
def readEntries : List (List Char) → List (String × Int)
  | [] => []
  | l :: ls =>
    match parseLine l with
    | some kv => kv :: readEntries ls
    | none => []

/-- Rebuild the dict by repeated assignment (a later duplicate key
overwrites an earlier one). -/
def buildStat (entries : List (String × Int)) : Store :=
  entries.foldl (fun st kv => setk st kv.1 kv.2) []

/-- `_readp4stat`: starts from an empty store; a missing or unreadable
file (`none`) leaves it empty; in every case the dirty flag ends
cleared and no error escapes. -/
def readp4stat (file : Option (List Char)) : Store × Bool :=
  match file with
  | none => ([], false)
  | some content => (buildStat (readEntries (splitNL content)), false)

/-! ### `pushcommon` — trimming and validation of the candidate range

`pending` abstracts `client.getpending` (a read of the store), `childp4`
abstracts the scan of a node's children for the `p4` extra key, and
`parent` abstracts `repo[n].parents()[0]`. -/

/-- The `end = 0` trimming loop: drop leading nodes that are already in a
changelist; the boolean reports whether anything was dropped at the
first step of the loop body (i.e. whether `trim` was set). -/
def trimFront (pending : String → Option Int) : List String → List String × Bool
  | [] => ([], false)
  | n :: t =>
    if (pending n).isSome then ((trimFront pending t).1, true)
    else (n :: t, false)

/-- The `end = -1` trimming loop: same on the other end of the range. -/
def trimBack (pending : String → Option Int) (l : List String) : List String × Bool :=
  let r := trimFront pending l.reverse
  (r.1.reverse, r.2)

/-- Both trimming loops of `pushcommon`, front first, plus the combined
`trim` flag. -/
def trimNodes (pending : String → Option Int) (nodes : List String) : List String × Bool :=
  let a := trimFront pending nodes
  let b := trimBack pending a.1
  (b.1, a.2 || b.2)

/-- `# recalculate the context`: the effective endpoints are recomputed
from the trimmed range when trimming dropped something and the range is
still non-empty. -/
def recompute (parent : String → String) (ctx1 ctx2 : String)
    (nodes : List String) (trim : Bool) : String × String :=
  if trim ∧ nodes ≠ [] then (parent (nodes.headD ""), nodes.getLastD "") else (ctx1, ctx2)

/-- One node fails validation when it is already pending/submitted or has
a child revision carrying the `p4` extra key. -/
def badNode (pending : String → Option Int) (childp4 : String → Bool) (n : String) : Bool :=
  (pending n).isSome || childp4 n

/-- `# check that remaining nodes have not already been pushed`: the scan
stops at the first offending node. -/
def findBad (pending : String → Option Int) (childp4 : String → Bool)
    (nodes : List String) : Option String :=
  nodes.find? (badNode pending childp4)

/-- The abort message of the validation step, naming the offending
revision. -/
def pushAbortMsg (n : String) : String :=
  "can not push, changeset " ++ n ++ " is already in p4"

/-- The trim-and-validate stage of `pushcommon`.  Without `--force` the
range is trimmed, the endpoints recomputed and the remaining nodes
validated; the store is only read, never written, and on success it is
returned unchanged.  An `error` result is a `util.Abort` raised before
any depot command of the push has been issued. -/
def pushcommonStage (force : Bool) (store : Store) (childp4 : String → Bool)
    (parent : String → String) (ctx1 ctx2 : String) (nodes : List String) :
    Except String (List String × String × String × Store) :=
  if force then .ok (nodes, ctx1, ctx2, store)
  else
    let t := trimNodes (getp store) nodes
    let c := recompute parent ctx1 ctx2 t.1 t.2
    match findBad (getp store) childp4 t.1 with
    | some n => .error (pushAbortMsg n)
    | none => .ok (t.1, c.1, c.2, store)

/-! ### Changelist description and revision-range marker -/

/-- The separator line placed between the messages of the revisions
folded into one changelist (the source joins with `'\n* * *\n'`). -/
def sepLine : String := "* * *"

/-- The full join string `'\n* * *\n'`. -/
def descSep : String := "\n" ++ sepLine ++ "\n"

/-- The identities recorded in the marker: first and last revision of the
range, or just the last when the range has a single revision. -/
def markerIds (nodes : List String) : List String :=
  (if 1 < nodes.length then [nodes.headD ""] else []) ++ [nodes.getLastD ""]

/-- The marker text `{{mercurial id}}` or `{{mercurial id1:id2}}`. -/
def markerText (ids : List String) : String :=
  "\x7b\x7bmercurial " ++ String.intercalate ":" ids ++ "\x7d\x7d"

/-- The export description built by `pushcommon`: the messages joined by
`'\n* * *\n'` followed by `'\n\n{{mercurial %s}}\n'`. -/
def pushDesc (msgs : List String) (nodes : List String) : String :=
  String.intercalate descSep msgs ++ "\n\n" ++ markerText (markerIds nodes) ++ "\n"

/-- The character class `[0-9a-f]` of the marker regex. -/
def isHexc (c : Char) : Bool := ('0' ≤ c && c ≤ '9') || ('a' ≤ c && c ≤ 'f')

/-- Match a literal prefix, returning the rest. -/
def stripPref : List Char → List Char → Option (List Char)
  | [], cs => some cs
  | _ :: _, [] => none
  | p :: ps, c :: cs => if c = p then stripPref ps cs else none

/-- Match exactly `k` hex characters, returning them and the rest. -/
def takeHex : Nat → List Char → Option (List Char × List Char)
  | 0, cs => some ([], cs)
  | _ + 1, [] => none
  | k + 1, c :: cs =>
    if isHexc c then (takeHex k cs).map (fun p => (c :: p.1, p.2)) else none

/-- Match the regex `{{mercurial (([0-9a-f]{40})(:([0-9a-f]{40}))?)}}` at
the head of the input, with the backtracking of the optional group:
group 2 and, when present, group 4. -/
def matchMarkerAt (cs : List Char) : Option (String × Option String) := do
  let r1 ← stripPref "\x7b\x7bmercurial ".data cs
  let p1 ← takeHex 40 r1
  let fallback := (stripPref "\x7d\x7d".data p1.2).map
    (fun _ => (String.mk p1.1, (none : Option String)))
  match p1.2 with
  | ':' :: r3 =>
    match takeHex 40 r3 with
    | some p2 =>
      match stripPref "\x7d\x7d".data p2.2 with
      | some _ => some (String.mk p1.1, some (String.mk p2.1))
      | none => fallback
    | none => fallback
  | _ => fallback

/-- `re.search`: the leftmost match of the marker regex. -/
def findMarker : List Char → Option (String × Option String)
  | [] => none
  | c :: cs =>
    match matchMarkerAt (c :: cs) with
    | some m => some m
    | none => findMarker cs

/-- Number of positions at which the marker regex matches. -/
def countMarkers : List Char → Nat
  | [] => 0
  | c :: cs => (if (matchMarkerAt (c :: cs)).isSome then 1 else 0) + countMarkers cs

/-- `p4client.parsenodes`: find the marker in a changelist description
and resolve the recorded range against the repository.  `nodesbetween`
abstracts `repo.changelog.nodesbetween` together with the `repo[hex]`
lookups; an `error` models the exception that the source catches, logs
and ignores, returning the empty range. -/
def parsenodes (nodesbetween : String → String → Except Unit (List String))
    (desc : String) : List String :=
  match findMarker desc.data with
  | none => []
  | some m =>
    match nodesbetween m.1 (m.2.getD m.1) with
    | .ok ns => ns
    | .error _ => []

/-! ### Batched depot queries (`p4client.run` / `p4client.where`) -/

/-- Python `range(0, N, T)` (empty when `T = 0`, where Python raises). -/
def rangeStep (i N T : Nat) : List Nat :=
  if _h : T = 0 then []
  else if i < N then i :: rangeStep (i + T) N T else []
termination_by N - i
decreasing_by omega

/-- `range(0, len(files), self.MAXARGS) or [0]`: batch start offsets, a
single batch with no file arguments when the file list is empty. -/
def batchStarts (N T : Nat) : List Nat :=
  match rangeStep 0 N T with
  | [] => [0]
  | l => l

/-- `ceil(N/T)` queries, or one query when `N = 0`. -/
def numBatches (N T : Nat) : Nat :=
  if N = 0 then 1 else (N + T - 1) / T

/-- The batching loop of `p4client.run`: one subprocess invocation per
batch `files[i:i + MAXARGS]`, yielding every reply record in order.
`depot` abstracts one invocation, mapping the argument list to the reply
records.  Returns all records and the number of invocations. -/
def runModel (depot : List String → List α) (T : Nat) (files : List String) :
    List α × Nat :=
  let starts := batchStarts files.length T
  ((starts.map (fun i => depot ((files.drop i).take T))).flatten, starts.length)

/-- One reply record of `p4 where`. -/
structure WRec where
  isErr : Bool
  severity : Nat
  generic : Nat
  data : String
  depotFile : String
  path : String
  unmap : Bool
deriving DecidableEq, Repr

/-- Processing of one `where` reply record, mirroring the loop body of
`p4client.where`: not-in-view errors are skipped, other errors abort,
unmapped files and files under `.hg` produce no result, and a mapped
file must live under the client root. -/
def whereStep (root : String) (acc : List (String × String)) (w : WRec) :
    Except String (List (String × String)) :=
  if w.isErr then
    if w.severity = 2 ∧ w.generic = 17 then .ok acc else .error w.data
  else if w.unmap || w.path.startsWith ".hg" then .ok acc
  else if (root ++ "/").isPrefixOf w.path then
    .ok (acc ++ [(w.depotFile, w.path.drop (root.length + 1))])
  else .error ("invalid p4 local path " ++ w.path)

/-- The reply-processing loop of `p4client.where`. -/
def whereProcess (root : String) : List WRec → List (String × String) →
    Except String (List (String × String))
  | [], acc => .ok acc
  | w :: ws, acc =>
    match whereStep root acc w with
    | .error e => .error e
    | .ok acc2 => whereProcess root ws acc2

/-- `p4client.where` on the uncached file list `flist`, given the reply
records: process every record, then compare the reply count with the
request count and abort on any mismatch. -/
def whereResolve (root : String) (flist : List String) (replies : List WRec) :
    Except String (List (String × String)) :=
  match whereProcess root replies [] with
  | .error e => .error e
  | .ok res =>
    if replies.length < flist.length then
      .error "incomplete reply from p4, reduce maxargs"
    else if flist.length < replies.length then
      .error "oversized reply from p4, remove duplicates from view"
    else .ok res

/-! ### The pull loop: fold mode and per-changelist import -/

/-- The `--startrev` filter of `pull`: a negative start keeps the last
`|startrev|` changelists (the effective start becoming the first of
them), a positive start keeps the changelists `≥ startrev` and requires
the first kept one to be exactly `startrev`; in fold mode fewer than two
changelists is a fatal abort.  The `IndexError` case models `changes[0]`
on an empty list. -/
def foldFilter (changes : List Nat) (startrev : Int) : Except String (List Nat × Nat) :=
  if startrev < 0 then
    match (changes.drop (changes.length - startrev.natAbs)).head? with
    | none => .error "IndexError"
    | some c0 =>
      if (changes.drop (changes.length - startrev.natAbs)).length < 2 then
        .error "with --startrev there must be at least two revisions to clone"
      else .ok (changes.drop (changes.length - startrev.natAbs), c0)
  else
    match (changes.filter (fun c => decide (startrev ≤ Int.ofNat c))).head? with
    | none => .error "IndexError"
    | some c0 =>
      if Int.ofNat c0 ≠ startrev then .error "changelist for --startrev not found"
      else if (changes.filter (fun c => decide (startrev ≤ Int.ofNat c))).length < 2 then
        .error "with --startrev there must be at least two revisions to clone"
      else .ok (changes.filter (fun c => decide (startrev ≤ Int.ofNat c)), c0)

/-- The `p4` extra metadata attached to each committed revision of the
pull loop: the first revision of a fold-mode pull carries none (it
represents all of history up to the start), every other revision carries
its changelist number. -/
def pullExtras : Bool → List Nat → List (Option Nat)
  | _, [] => []
  | true, _ :: rest => none :: pullExtras false rest
  | false, c :: rest => some c :: pullExtras false rest

/-- Clear the store entries for every revision of a decoded range, as the
pull loop does via `setpending(_, None)` just before committing. -/
def clearNodes (st : Store) (dirty : Bool) (nodes : List String) : Store × Bool :=
  nodes.foldl (fun sd n => setpending sd.1 sd.2 n none) (st, dirty)

/-- Result of importing one changelist in the pull loop. -/
structure ImportResult where
  parent2 : Option String
  extra : Option Nat
  store : Store
  dirty : Bool
deriving DecidableEq, Repr

/-- One iteration of the pull loop, after the files have been fetched:
decode the marker from the description, chain the new revision onto the
last revision of the decoded range (`parent = nodes[-1]`), clear the
pending-state entries of the range, and attach the `p4` extra unless
this is the folded first revision of a fold-mode pull. -/
def importChange (nodesbetween : String → String → Except Unit (List String))
    (store : Store) (dirty : Bool) (desc : String) (c : Nat) (startrev : Bool) :
    ImportResult :=
  let nodes := parsenodes nodesbetween desc
  let sd := clearNodes store dirty nodes
  { parent2 := nodes.getLast?
    extra := if startrev then none else some c
    store := sd.1
    dirty := sd.2 }

/-- Events of one pull-loop iteration, used to state the order between
the clearing of pending-state entries and the commit. -/
inductive PullEvent where
  | clear (n : String)
  | commit (c : Nat)
deriving DecidableEq, Repr

/-- The event trace of one pull-loop iteration: the store entries of the
decoded range are cleared first, then `repo.commitctx` runs; when the
commit fails its event is absent but the clears have already happened,
and the resulting store keeps them cleared (there is no rollback). -/
def processChange (store : Store) (dirty : Bool) (nodes : List String) (c : Nat)
    (commitOk : Bool) : List PullEvent × Store × Bool :=
  let sd := clearNodes store dirty nodes
  (nodes.map PullEvent.clear ++ (if commitOk then [PullEvent.commit c] else []),
   sd.1, sd.2)

/-! ### Lemmas: decimal codec -/

theorem charVal_digitChar {d : Nat} (h : d < 10) : charVal (digitChar d) = d := by
  interval_cases d <;> rfl

theorem isDig_digitChar {d : Nat} (h : d < 10) : isDig (digitChar d) = true := by
  interval_cases d <;> rfl

theorem natChars_ne_nil (n : Nat) : natChars n ≠ [] := by
  unfold natChars
  split
  · simp
  · next h =>
    have : Nat.digits 10 n ≠ [] := Nat.digits_ne_nil_iff_ne_zero.2 h
    simp [this]

theorem natChars_all_isDig (n : Nat) : ∀ c ∈ natChars n, isDig c = true := by
  intro c hc
  unfold natChars at hc
  split at hc
  · simp at hc; subst hc; rfl
  · simp only [List.mem_reverse, List.mem_map] at hc
    obtain ⟨d, hd, rfl⟩ := hc
    exact isDig_digitChar (Nat.digits_lt_base (by norm_num) hd)

theorem ofDigits_natChars (n : Nat) :
    Nat.ofDigits 10 ((natChars n).reverse.map charVal) = n := by
  unfold natChars
  split
  · next h => subst h; simp [charVal, Nat.ofDigits]
  · next h =>
    rw [List.reverse_reverse, List.map_map]
    rw [show (Nat.digits 10 n).map (charVal ∘ digitChar) = (Nat.digits 10 n).map id from
      List.map_congr_left
        (fun d hd => charVal_digitChar (Nat.digits_lt_base (by norm_num) hd))]
    rw [List.map_id, Nat.ofDigits_digits]

theorem parseNat_natChars (n : Nat) : parseNat (natChars n) = some n := by
  unfold parseNat
  rw [if_pos ⟨natChars_ne_nil n,
    by rw [List.all_eq_true]; exact fun c hc => natChars_all_isDig n c hc⟩]
  rw [ofDigits_natChars]

theorem natChars_head (n : Nat) : ∃ c t, natChars n = c :: t ∧ isDig c = true := by
  cases h : natChars n with
  | nil => exact absurd h (natChars_ne_nil n)
  | cons c t =>
    refine ⟨c, t, rfl, natChars_all_isDig n c ?_⟩
    rw [h]; exact List.mem_cons_self c t

theorem isDig_ne_s {c : Char} (h : isDig c = true) : c ≠ 's' := by
  intro hc; subst hc; exact absurd h (by decide)

theorem isDig_ne_dash {c : Char} (h : isDig c = true) : c ≠ '-' := by
  intro hc; subst hc; exact absurd h (by decide)

theorem parseInt_natChars (m : Nat) : parseInt (natChars m) = some (Int.ofNat m) := by
  obtain ⟨c, t, he, hd⟩ := natChars_head m
  have hnd : ¬ (natChars m).head? = some '-' := by
    rw [he, List.head?_cons]
    simp only [Option.some_inj]
    exact isDig_ne_dash hd
  unfold parseInt
  rw [if_neg hnd, parseNat_natChars]
  rfl

theorem stateChars_of_nonneg {v : Int} (h : ¬ v = SUBMITTED) (h0 : 0 ≤ v) :
    stateChars v = natChars v.toNat := by
  unfold stateChars intChars
  rw [if_neg h, if_neg (by omega : ¬ v < 0)]

theorem parseState_stateChars {v : Int} (hv : v = SUBMITTED ∨ 0 ≤ v) :
    parseState (stateChars v) = some v := by
  by_cases h : v = SUBMITTED
  · subst h; decide
  · have h0 : 0 ≤ v := hv.resolve_left h
    rw [stateChars_of_nonneg h h0]
    obtain ⟨c, t, he, hd⟩ := natChars_head v.toNat
    have hns : ¬ (natChars v.toNat).head? = some 's' := by
      rw [he, List.head?_cons]
      simp only [Option.some_inj]
      exact isDig_ne_s hd
    unfold parseState
    rw [if_neg hns, parseInt_natChars]
    congr 1
    simp [Int.toNat_of_nonneg h0]

/-! ### Lemmas: characters and whitespace -/

theorem isDig_not_ws {c : Char} (h : isDig c = true) : c.isWhitespace = false := by
  simp only [isDig, Bool.and_eq_true, decide_eq_true_eq] at h
  have h1 : c ≠ ' ' := fun e => by subst e; exact absurd h.1 (by decide)
  have h2 : c ≠ '\t' := fun e => by subst e; exact absurd h.1 (by decide)
  have h3 : c ≠ '\r' := fun e => by subst e; exact absurd h.1 (by decide)
  have h4 : c ≠ '\n' := fun e => by subst e; exact absurd h.1 (by decide)
  simp [Char.isWhitespace, h1, h2, h3, h4]

theorem stateChars_not_ws {v : Int} (hv : v = SUBMITTED ∨ 0 ≤ v) :
    ∀ c ∈ stateChars v, c.isWhitespace = false := by
  intro c hc
  unfold stateChars at hc
  split at hc
  · revert hc; revert c; decide
  · next h =>
    have h0 : 0 ≤ v := hv.resolve_left h
    unfold intChars at hc
    rw [if_neg (by omega)] at hc
    exact isDig_not_ws (natChars_all_isDig _ c hc)

theorem stateChars_ne_nil {v : Int} (hv : v = SUBMITTED ∨ 0 ≤ v) :
    stateChars v ≠ [] := by
  unfold stateChars
  split
  · decide
  · next h =>
    have h0 : 0 ≤ v := hv.resolve_left h
    unfold intChars
    rw [if_neg (by omega)]
    exact natChars_ne_nil _

theorem ws_not_mem_stateChars {v : Int} (hv : v = SUBMITTED ∨ 0 ≤ v) {c : Char}
    (hc : c.isWhitespace = true) : c ∉ stateChars v := by
  intro hm
  rw [stateChars_not_ws hv c hm] at hc
  exact absurd hc (by simp)

/-! ### Lemmas: strip, split and line structure -/

theorem dropWhile_ws_eq_self {l : List Char}
    (h : ∀ c, l.head? = some c → c.isWhitespace = false) :
    l.dropWhile Char.isWhitespace = l := by
  cases l with
  | nil => rfl
  | cons c t => simp [List.dropWhile_cons, h c rfl]

theorem stripChars_eq_self {l : List Char}
    (h1 : ∀ c, l.head? = some c → c.isWhitespace = false)
    (h2 : ∀ c, l.getLast? = some c → c.isWhitespace = false) :
    stripChars l = l := by
  unfold stripChars
  rw [dropWhile_ws_eq_self h1]
  rw [dropWhile_ws_eq_self (fun c hc => h2 c (by rw [← List.head?_reverse]; exact hc))]
  exact List.reverse_reverse l

theorem splitSp_append {k : List Char} (hk : ' ' ∉ k) (rest : List Char) :
    splitSp (k ++ ' ' :: rest) = some (k, rest) := by
  induction k with
  | nil => simp [splitSp]
  | cons c t ih =>
    have hc : c ≠ ' ' := fun e => hk (List.mem_cons.2 (Or.inl e.symm))
    have ht : ' ' ∉ t := fun m => hk (List.mem_cons_of_mem c m)
    simp [splitSp, hc, ih ht]

theorem mem_of_getLast?_eq {α : Type} {l : List α} {x : α} (h : l.getLast? = some x) :
    x ∈ l := by
  obtain ⟨hne, heq⟩ := List.mem_getLast?_eq_getLast (Option.mem_def.2 h)
  rw [heq]
  exact List.getLast_mem hne

theorem parseLine_p4statLine {kv : String × Int}
    (hk : kv.1.data ≠ []) (hkw : ∀ c ∈ kv.1.data, c.isWhitespace = false)
    (hv : kv.2 = SUBMITTED ∨ 0 ≤ kv.2) :
    parseLine (p4statLine kv) = some kv := by
  obtain ⟨k, v⟩ := kv
  unfold parseLine p4statLine
  have hsp : ' ' ∉ k.data := fun m => by
    have := hkw ' ' m; exact absurd this (by simp)
  have hstrip : stripChars (k.data ++ ' ' :: stateChars v) = k.data ++ ' ' :: stateChars v := by
    apply stripChars_eq_self
    · intro c hc
      cases hd : k.data with
      | nil => exact absurd hd hk
      | cons c0 t0 =>
        rw [hd, List.cons_append, List.head?_cons, Option.some_inj] at hc
        subst hc
        exact hkw c0 (by rw [hd]; exact List.mem_cons_self c0 t0)
    · intro c hc
      rw [List.getLast?_append_cons, List.getLast?_cons] at hc
      cases hsc : (stateChars v).getLast? with
      | none =>
        exact absurd (List.getLast?_eq_none_iff.1 hsc) (stateChars_ne_nil hv)
      | some c2 =>
        rw [hsc] at hc
        simp only [Option.getD_some, Option.some_inj] at hc
        subst hc
        exact stateChars_not_ws hv c2 (mem_of_getLast?_eq hsc)
  rw [hstrip, splitSp_append hsp]
  simp [parseState_stateChars hv]

theorem readEntries_map {m : Store}
    (hm : ∀ kv ∈ m, parseLine (p4statLine kv) = some kv) :
    readEntries (m.map p4statLine) = m := by
  induction m with
  | nil => rfl
  | cons kv t ih =>
    simp only [List.map_cons, readEntries]
    rw [hm kv (List.mem_cons_self _ _)]
    rw [ih (fun kv2 h2 => hm kv2 (List.mem_cons_of_mem _ h2))]

theorem splitNL_cons_line {l : List Char} (hl : '\n' ∉ l) (rest : List Char) :
    splitNL (l ++ '\n' :: rest) = l :: splitNL rest := by
  induction l with
  | nil => simp [splitNL]
  | cons c t ih =>
    have hc : c ≠ '\n' := fun e => hl (List.mem_cons.2 (Or.inl e.symm))
    have ht : '\n' ∉ t := fun m => hl (List.mem_cons_of_mem c m)
    rw [List.cons_append]
    simp only [splitNL]
    rw [if_neg hc, ih ht]

theorem mem_p4statLine_nl {kv : String × Int}
    (hkw : ∀ c ∈ kv.1.data, c.isWhitespace = false)
    (hv : kv.2 = SUBMITTED ∨ 0 ≤ kv.2) :
    '\n' ∉ p4statLine kv := by
  unfold p4statLine
  intro hm
  rcases List.mem_append.1 hm with h | h
  · have := hkw _ h; exact absurd this (by simp)
  · rcases List.mem_cons.1 h with h2 | h2
    · exact absurd h2.symm (by decide)
    · exact ws_not_mem_stateChars hv (by decide) h2

theorem splitNL_writep4stat {m : Store}
    (h : ∀ kv ∈ m, '\n' ∉ p4statLine kv) :
    splitNL (writep4stat m) = m.map p4statLine := by
  induction m with
  | nil => rfl
  | cons kv t ih =>
    show splitNL ((p4statLine kv ++ [ '\n' ]) ++ writep4stat t) = _
    rw [List.append_assoc, List.singleton_append]
    rw [splitNL_cons_line (h kv (List.mem_cons_self _ _))]
    rw [ih (fun kv2 h2 => h kv2 (List.mem_cons_of_mem _ h2))]
    rfl

/-! ### Lemmas: rebuilding the dict -/

/-- The keys of a store in order. -/
def keys (st : Store) : List String := st.map Prod.fst

theorem keys_cons (kv : String × Int) (t : Store) : keys (kv :: t) = kv.1 :: keys t := rfl

theorem setk_append {st : Store} {k : String} {v : Int} (h : k ∉ keys st) :
    setk st k v = st ++ [(k, v)] := by
  induction st with
  | nil => rfl
  | cons kv t ih =>
    rw [keys_cons] at h
    obtain ⟨a, b⟩ := kv
    have h1 : a ≠ k := fun e => h (List.mem_cons.2 (Or.inl e.symm))
    have h2 : k ∉ keys t := fun m => h (List.mem_cons_of_mem _ m)
    simp only [setk, List.cons_append]
    rw [if_neg h1, ih h2]

theorem foldl_setk {m : Store} (hm : (keys m).Nodup) :
    ∀ acc : Store, (∀ k, k ∈ keys m → k ∉ keys acc) →
      m.foldl (fun st kv => setk st kv.1 kv.2) acc = acc ++ m := by
  induction m with
  | nil => intro acc _; simp
  | cons kv t ih =>
    intro acc hdisj
    rw [keys_cons] at hm hdisj
    have hnd : (keys t).Nodup := (List.nodup_cons.1 hm).2
    have hhead : kv.1 ∉ keys t := (List.nodup_cons.1 hm).1
    simp only [List.foldl_cons]
    rw [setk_append (hdisj kv.1 (List.mem_cons_self _ _))]
    rw [ih hnd (acc ++ [kv]) ?_]
    · simp
    · intro k hk
      rw [keys, List.map_append]
      simp only [List.mem_append, keys_cons]
      push_neg
      constructor
      · exact fun hka => hdisj k (List.mem_cons_of_mem _ hk) hka
      · intro hks
        rcases List.mem_cons.1 hks with h1 | h1
        · exact absurd (h1 ▸ hk) hhead
        · exact absurd h1 (by simp [keys])

theorem buildStat_eq {m : Store} (h : (keys m).Nodup) : buildStat m = m := by
  unfold buildStat
  rw [foldl_setk h [] (by intro k _; simp [keys])]
  simp

/-! ### C7 and C9 -/

/-- C7: `_writep4stat` produces exactly one text line
`<revisionId> <status>` per tracked revision — the literal `submitted`
or the decimal changelist number — and for every in-memory pending-state
mapping (distinct, whitespace-free, non-empty revision identities;
statuses that are the submitted sentinel or a non-negative changelist
number) reading the written file reconstructs the same mapping with the
dirty flag clear. -/
theorem p4stat_write_read_roundtrip (m : Store)
    (hnd : (keys m).Nodup)
    (hkeys : ∀ kv ∈ m, kv.1.data ≠ [] ∧ ∀ c ∈ kv.1.data, c.isWhitespace = false)
    (hvals : ∀ kv ∈ m, kv.2 = SUBMITTED ∨ 0 ≤ kv.2) :
    splitNL (writep4stat m) = m.map p4statLine ∧
    (∀ kv ∈ m, p4statLine kv = kv.1.data ++ ' ' :: stateChars kv.2) ∧
    readp4stat (some (writep4stat m)) = (m, false) := by
  have hlines : ∀ kv ∈ m, '\n' ∉ p4statLine kv := fun kv hm =>
    mem_p4statLine_nl (hkeys kv hm).2 (hvals kv hm)
  have hsplit := splitNL_writep4stat hlines
  refine ⟨hsplit, fun kv _ => rfl, ?_⟩
  show (buildStat (readEntries (splitNL (writep4stat m))), false) = (m, false)
  rw [hsplit]
  rw [readEntries_map (fun kv hm =>
    parseLine_p4statLine (hkeys kv hm).1 (hkeys kv hm).2 (hvals kv hm))]
  rw [buildStat_eq hnd]

/-- Witness for C7 at a concrete two-entry store. -/
theorem p4stat_write_read_roundtrip_witness :
    readp4stat (some (writep4stat [("ab", 5), ("cd", -1)])) = ([("ab", 5), ("cd", -1)], false) :=
  (p4stat_write_read_roundtrip [("ab", 5), ("cd", -1)]
    (by decide) (by decide) (by decide)).2.2

/-- C9: `_readp4stat` tolerates a missing or unreadable store file — the
load starts from the empty mapping and never aborts — and after any
read, failed or not, the dirty flag is cleared. -/
theorem readp4stat_tolerates_missing :
    readp4stat none = ([], false) ∧ ∀ file, (readp4stat file).2 = false := by
  refine ⟨rfl, ?_⟩
  intro file
  cases file <;> rfl

/-! ### Lemmas: trimming -/

theorem trimFront_eq_dropWhile (p : String → Option Int) (l : List String) :
    (trimFront p l).1 = l.dropWhile (fun n => (p n).isSome) := by
  induction l with
  | nil => rfl
  | cons n t ih =>
    simp only [trimFront, List.dropWhile_cons]
    by_cases h : (p n).isSome
    · simp [h, ih]
    · simp [h]

theorem head?_dropWhile {α : Type} (q : α → Bool) (l : List α) {x : α}
    (h : (l.dropWhile q).head? = some x) : q x = false := by
  induction l with
  | nil => simp [List.dropWhile] at h
  | cons a t ih =>
    rw [List.dropWhile_cons] at h
    by_cases hq : q a
    · rw [if_pos hq] at h; exact ih h
    · rw [if_neg hq, List.head?_cons, Option.some_inj] at h
      subst h
      simpa using hq

theorem getLast?_dropWhile_ne_nil {α : Type} (q : α → Bool) (l : List α)
    (h : l.dropWhile q ≠ []) : (l.dropWhile q).getLast? = l.getLast? := by
  induction l with
  | nil => simp [List.dropWhile] at h
  | cons a t ih =>
    rw [List.dropWhile_cons] at h ⊢
    by_cases hq : q a
    · rw [if_pos hq] at h ⊢
      have ht : t ≠ [] := by
        intro e; subst e; simp [List.dropWhile] at h
      rw [ih h, List.getLast?_cons]
      cases hg : t.getLast? with
      | none => exact absurd (List.getLast?_eq_none_iff.1 hg) ht
      | some x => simp
    · rw [if_neg hq]

theorem isSome_eq_false_iff {o : Option Int} : o.isSome = false ↔ o = none := by
  cases o <;> simp

theorem trimNodes_head_untracked (p : String → Option Int) (nodes : List String) {x : String}
    (h : ((trimNodes p nodes).1).head? = some x) : p x = none := by
  unfold trimNodes trimBack at h
  simp only at h
  rw [trimFront_eq_dropWhile, trimFront_eq_dropWhile] at h
  set q : String → Bool := fun n => (p n).isSome with hq
  set a : List String := nodes.dropWhile q with ha
  rw [List.head?_reverse] at h
  have hdne : a.reverse.dropWhile q ≠ [] := by
    intro e; rw [e] at h; simp at h
  rw [getLast?_dropWhile_ne_nil q a.reverse hdne, List.getLast?_reverse] at h
  exact isSome_eq_false_iff.1 (head?_dropWhile q nodes h)

theorem trimNodes_last_untracked (p : String → Option Int) (nodes : List String) {x : String}
    (h : ((trimNodes p nodes).1).getLast? = some x) : p x = none := by
  unfold trimNodes trimBack at h
  simp only at h
  rw [trimFront_eq_dropWhile, trimFront_eq_dropWhile] at h
  set q : String → Bool := fun n => (p n).isSome with hq
  rw [List.getLast?_reverse] at h
  exact isSome_eq_false_iff.1 (head?_dropWhile q _ h)

/-! ### C2 -/

/-- C2: without `--force`, trimming drops already-tracked revisions from
the front and then from the back of the candidate range until neither
end is tracked; for `[r1, r2, r3]` with `r1` and `r3` pending it yields
exactly `[r2]` with the trim flag set, and the effective endpoints are
then recomputed from the trimmed range (`ctx1` the parent of its first
node, `ctx2` its last node). -/
theorem push_trim_spec (p : String → Option Int) (parent : String → String)
    (ctx1 ctx2 r1 r2 r3 : String) (c1 c3 : Int)
    (h1 : p r1 = some c1) (h2 : p r2 = none) (h3 : p r3 = some c3) :
    trimNodes p [r1, r2, r3] = ([r2], true) ∧
    recompute parent ctx1 ctx2 (trimNodes p [r1, r2, r3]).1 (trimNodes p [r1, r2, r3]).2
      = (parent r2, r2) ∧
    (∀ (nodes : List String) (x : String),
      (((trimNodes p nodes).1).head? = some x → p x = none) ∧
      (((trimNodes p nodes).1).getLast? = some x → p x = none)) := by
  have htrim : trimNodes p [r1, r2, r3] = ([r2], true) := by
    simp [trimNodes, trimFront, trimBack, h1, h2, h3]
  refine ⟨htrim, ?_, ?_⟩
  · rw [htrim]
    simp [recompute]
  · intro nodes x
    exact ⟨trimNodes_head_untracked p nodes, trimNodes_last_untracked p nodes⟩

/-- Witness for C2 at a concrete pending map and range. -/
theorem push_trim_spec_witness :
    trimNodes (fun n => if n = "r1" then some 1 else if n = "r3" then some 3 else none)
      [ "r1", "r2", "r3" ] = (["r2"], true) :=
  (push_trim_spec (fun n => if n = "r1" then some 1 else if n = "r3" then some 3 else none)
    (fun n => n) "c1" "c2" "r1" "r2" "r3" 1 3 (by decide) (by decide) (by decide)).1

/-! ### C4 -/

/-- C4: without the force flag, if after trimming some remaining revision
is already pending/submitted or has a child carrying the `p4` metadata
key, `pushcommon` aborts with a message naming the first offending
revision; the error is raised inside the pure trim-and-validate stage —
before the push has issued any depot command — and the stage never
mutates the pending-state store (a successful stage returns it
unchanged). -/
theorem push_validate_abort (store : Store) (childp4 : String → Bool)
    (parent : String → String) (ctx1 ctx2 : String) (nodes : List String) (n0 : String)
    (hfind : findBad (getp store) childp4 (trimNodes (getp store) nodes).1 = some n0) :
    pushcommonStage false store childp4 parent ctx1 ctx2 nodes = .error (pushAbortMsg n0) ∧
    n0 ∈ (trimNodes (getp store) nodes).1 ∧
    badNode (getp store) childp4 n0 = true ∧
    (∀ (force : Bool) (nds : List String) (c1 c2 : String) (st2 : Store),
      pushcommonStage force store childp4 parent ctx1 ctx2 nodes = .ok (nds, c1, c2, st2) →
      st2 = store) := by
  refine ⟨?_, List.mem_of_find?_eq_some hfind, List.find?_some hfind, ?_⟩
  · simp only [pushcommonStage, Bool.false_eq_true, if_false]
    rw [hfind]
  · intro force nds c1 c2 st2 h
    by_cases hf : force = true
    · subst hf
      simp only [pushcommonStage, if_true] at h
      injection h with h
      exact (congrArg (fun q => q.2.2.2) h).symm
    · rw [Bool.not_eq_true] at hf
      subst hf
      simp only [pushcommonStage, Bool.false_eq_true, if_false] at h
      rw [hfind] at h
      exact absurd h (by simp)

/-- Witness for C4: an untracked range whose middle revision has a child
already converted from p4. -/
theorem push_validate_abort_witness :
    pushcommonStage false [] (fun n => decide (n = "b")) (fun n => n) "x" "y"
      ["a", "b", "c"] = Except.error (pushAbortMsg "b") :=
  (push_validate_abort [] (fun n => decide (n = "b")) (fun n => n) "x" "y"
    ["a", "b", "c"] "b" (by decide)).1

/-! ### C8 -/

/-- C8: `parsenodes` is a total function into revision lists — decoding
never raises.  When the description has no marker, or when resolving the
recorded identities against the repository fails, the result is the
empty range (the changelist is then treated as depot-native); neither
case is fatal. -/
theorem parsenodes_total (nb : String → String → Except Unit (List String)) (desc : String) :
    (findMarker desc.data = none → parsenodes nb desc = []) ∧
    (∀ a b, findMarker desc.data = some (a, b) → nb a (b.getD a) = .error () →
      parsenodes nb desc = []) := by
  constructor
  · intro h
    unfold parsenodes
    rw [h]
  · intro a b hf he
    unfold parsenodes
    rw [hf]
    simp only
    rw [he]

/-- Witness for C8: a description without a marker, and one whose marker
decodes to identities unknown to the repository. -/
theorem parsenodes_total_witness :
    parsenodes (fun _ _ => (Except.error () : Except Unit (List String))) "no marker here" = []
    ∧ parsenodes (fun _ _ => (Except.error () : Except Unit (List String)))
        "\x7b\x7bmercurial aaaaaaaaaaaaaaaaaaaaaaaaaaaaaaaaaaaaaaaa\x7d\x7d" = [] := by
  constructor
  · exact (parsenodes_total _ _).1 (by decide)
  · exact (parsenodes_total _ _).2 "aaaaaaaaaaaaaaaaaaaaaaaaaaaaaaaaaaaaaaaa" none
      (by decide) rfl

/-! ### Lemmas: clearing store entries -/

theorem getp_eq_none_of_not_mem {st : Store} {n : String} (h : n ∉ keys st) :
    getp st n = none := by
  induction st with
  | nil => rfl
  | cons kv t ih =>
    rw [keys_cons] at h
    have h1 : kv.1 ≠ n := fun e => h (List.mem_cons.2 (Or.inl e.symm))
    have h2 : n ∉ keys t := fun m => h (List.mem_cons_of_mem _ m)
    obtain ⟨a, b⟩ := kv
    simp only [getp]
    rw [if_neg h1]
    exact ih h2

theorem mem_keys_delk {st : Store} {k m : String} (h : k ∈ keys (delk st m)) :
    k ∈ keys st := by
  induction st with
  | nil => exact h
  | cons kv t ih =>
    obtain ⟨a, b⟩ := kv
    simp only [delk] at h
    by_cases he : a = m
    · rw [if_pos he] at h
      exact List.mem_cons_of_mem _ h
    · rw [if_neg he] at h
      rw [keys_cons] at h ⊢
      rcases List.mem_cons.1 h with h1 | h1
      · exact List.mem_cons.2 (Or.inl h1)
      · exact List.mem_cons_of_mem _ (ih h1)

theorem nodup_delk {st : Store} (hnd : (keys st).Nodup) (m : String) :
    (keys (delk st m)).Nodup := by
  induction st with
  | nil => exact hnd
  | cons kv t ih =>
    obtain ⟨a, b⟩ := kv
    rw [keys_cons] at hnd
    obtain ⟨hna, hnt⟩ := List.nodup_cons.1 hnd
    simp only [delk]
    by_cases he : a = m
    · rw [if_pos he]
      exact hnt
    · rw [if_neg he, keys_cons]
      exact List.nodup_cons.2 ⟨fun hm => hna (mem_keys_delk hm), ih hnt⟩

theorem getp_delk_self {st : Store} (hnd : (keys st).Nodup) (n : String) :
    getp (delk st n) n = none := by
  induction st with
  | nil => rfl
  | cons kv t ih =>
    obtain ⟨a, b⟩ := kv
    rw [keys_cons] at hnd
    obtain ⟨hna, hnt⟩ := List.nodup_cons.1 hnd
    simp only [delk]
    by_cases he : a = n
    · rw [if_pos he]
      exact getp_eq_none_of_not_mem (he ▸ hna)
    · rw [if_neg he]
      simp only [getp]
      rw [if_neg he]
      exact ih hnt

theorem getp_delk_other {st : Store} {n m : String} (h : n ≠ m) :
    getp (delk st m) n = getp st n := by
  induction st with
  | nil => rfl
  | cons kv t ih =>
    obtain ⟨a, b⟩ := kv
    simp only [delk, getp]
    by_cases he : a = m
    · rw [if_pos he, if_neg (fun e : a = n => h (e ▸ he ▸ rfl))]
    · rw [if_neg he]
      simp only [getp]
      by_cases he2 : a = n
      · rw [if_pos he2, if_pos he2]
      · rw [if_neg he2, if_neg he2]
        exact ih

theorem setpending_none_cases (st : Store) (d : Bool) (n : String) :
    (setpending st d n none).1 = st ∧ getp st n = none ∨
    (setpending st d n none).1 = delk st n := by
  unfold setpending
  by_cases h : getp st n = (none : Option Int)
  · rw [if_pos h]
    exact Or.inl ⟨rfl, h⟩
  · rw [if_neg h]
    exact Or.inr rfl

theorem nodup_setpending_none {st : Store} (hnd : (keys st).Nodup) (d : Bool) (n : String) :
    (keys (setpending st d n none).1).Nodup := by
  rcases setpending_none_cases st d n with ⟨he, -⟩ | he <;> rw [he]
  · exact hnd
  · exact nodup_delk hnd n

theorem getp_setpending_none_self {st : Store} (hnd : (keys st).Nodup) (d : Bool) (n : String) :
    getp (setpending st d n none).1 n = none := by
  rcases setpending_none_cases st d n with ⟨he, hn⟩ | he <;> rw [he]
  · exact hn
  · exact getp_delk_self hnd n

theorem getp_setpending_none_other {st : Store} {r n : String} (h : r ≠ n) (d : Bool) :
    getp (setpending st d n none).1 r = getp st r := by
  rcases setpending_none_cases st d n with ⟨he, -⟩ | he <;> rw [he]
  · exact getp_delk_other h

theorem nodup_clearNodes {st : Store} (hnd : (keys st).Nodup) (d : Bool)
    (nodes : List String) : (keys (clearNodes st d nodes).1).Nodup := by
  induction nodes generalizing st d with
  | nil => exact hnd
  | cons n t ih =>
    show (keys (clearNodes (setpending st d n none).1 (setpending st d n none).2 t).1).Nodup
    exact ih (nodup_setpending_none hnd d n) (setpending st d n none).2

theorem getp_clearNodes_of_none {st : Store} {r : String} (h : getp st r = none)
    (d : Bool) (nodes : List String) : getp (clearNodes st d nodes).1 r = none := by
  induction nodes generalizing st d with
  | nil => exact h
  | cons n t ih =>
    show getp (clearNodes (setpending st d n none).1 (setpending st d n none).2 t).1 r = none
    apply ih
    by_cases he : r = n
    · subst he
      have hst : (setpending st d r none).1 = st := by
        unfold setpending
        rw [if_pos h]
      rw [hst]
      exact h
    · rw [getp_setpending_none_other he]
      exact h

theorem getp_clearNodes_mem {st : Store} (hnd : (keys st).Nodup) {r : String}
    {nodes : List String} (hr : r ∈ nodes) (d : Bool) :
    getp (clearNodes st d nodes).1 r = none := by
  induction nodes generalizing st d with
  | nil => cases hr
  | cons n t ih =>
    show getp (clearNodes (setpending st d n none).1 (setpending st d n none).2 t).1 r = none
    rcases List.mem_cons.1 hr with he | ht
    · subst he
      exact getp_clearNodes_of_none (getp_setpending_none_self hnd d r) _ t
    · exact ih (nodup_setpending_none hnd d n) ht (setpending st d n none).2

/-! ### C1 -/

/-- C1: when a pull imports a changelist whose description carries a
marker decoding to a range containing the tracked revision `r`, the
pending-state entry of `r` is cleared back to absent, and the second
parent of the newly imported revision is the last identity of the
decoded range. -/
theorem pull_reconciles_pending
    (nb : String → String → Except Unit (List String)) (store : Store) (dirty : Bool)
    (desc : String) (c : Nat) (r : String) (cl : Nat)
    (hnd : (keys store).Nodup)
    (hpend : getp store r = some (Int.ofNat cl))
    (hmem : r ∈ parsenodes nb desc) :
    getp (importChange nb store dirty desc c false).store r = none ∧
    (importChange nb store dirty desc c false).parent2 = (parsenodes nb desc).getLast? ∧
    ∃ last, (parsenodes nb desc).getLast? = some last ∧
      (importChange nb store dirty desc c false).parent2 = some last := by
  refine ⟨getp_clearNodes_mem hnd hmem dirty, rfl, ?_⟩
  cases hg : (parsenodes nb desc).getLast? with
  | none =>
    have := List.getLast?_eq_none_iff.1 hg
    rw [this] at hmem
    cases hmem
  | some last =>
    exact ⟨last, rfl, by show (parsenodes nb desc).getLast? = some last; rw [hg]⟩

/-- Witness for C1 at a store tracking one 40-hex revision pending in
changelist 5 and a description whose marker names it. -/
theorem pull_reconciles_pending_witness :
    getp (importChange (fun a _ => Except.ok [a])
      [("aaaaaaaaaaaaaaaaaaaaaaaaaaaaaaaaaaaaaaaa", 5)] false
      "\x7b\x7bmercurial aaaaaaaaaaaaaaaaaaaaaaaaaaaaaaaaaaaaaaaa\x7d\x7d" 5 false).store
      "aaaaaaaaaaaaaaaaaaaaaaaaaaaaaaaaaaaaaaaa" = none :=
  (pull_reconciles_pending (fun a _ => Except.ok [a])
    [("aaaaaaaaaaaaaaaaaaaaaaaaaaaaaaaaaaaaaaaa", 5)] false
    "\x7b\x7bmercurial aaaaaaaaaaaaaaaaaaaaaaaaaaaaaaaaaaaaaaaa\x7d\x7d" 5
    "aaaaaaaaaaaaaaaaaaaaaaaaaaaaaaaaaaaaaaaa" 5
    (by decide) (by decide) (by decide)).1

/-! ### C10 -/

/-- C10: in one pull-loop iteration the pending-state entries of the
decoded range are cleared strictly before the commit event; when the
commit fails the resulting store still has the range cleared — the
clearing is not rolled back and is not atomic with the commit. -/
theorem pull_clear_not_atomic (store : Store) (dirty : Bool) (nodes : List String)
    (c : Nat) (ok : Bool) :
    (∀ (i j : Nat) (n : String) (cl : Nat),
      (processChange store dirty nodes c ok).1[i]? = some (PullEvent.clear n) →
      (processChange store dirty nodes c ok).1[j]? = some (PullEvent.commit cl) → i < j) ∧
    (processChange store dirty nodes c false).2.1 = (clearNodes store dirty nodes).1 ∧
    (∀ r ∈ nodes, (keys store).Nodup →
      getp (processChange store dirty nodes c false).2.1 r = none) := by
  refine ⟨?_, rfl, fun r hr hnd => getp_clearNodes_mem hnd hr dirty⟩
  intro i j n cl hi hj
  simp only [processChange] at hi hj
  set L := nodes.map PullEvent.clear with hL
  by_cases hiL : i < L.length
  · by_cases hjL : j < L.length
    · rw [List.getElem?_append, if_pos hjL] at hj
      have hmem : PullEvent.commit cl ∈ L := List.getElem?_mem hj
      rw [hL] at hmem
      obtain ⟨m, -, hm⟩ := List.mem_map.1 hmem
      cases hm
    · omega
  · rw [List.getElem?_append, if_neg (by omega)] at hi
    cases ok with
    | false => simp at hi
    | true =>
      rcases hk : i - L.length with _ | k
      · rw [hk] at hi
        simp at hi
      · rw [hk] at hi
        simp at hi

/-- Witness for C10: a failed commit leaves the cleared entry absent. -/
theorem pull_clear_not_atomic_witness :
    getp (processChange [("x", 3)] false ["x"] 9 false).2.1 "x" = none :=
  (pull_clear_not_atomic [("x", 3)] false ["x"] 9 false).2.2 "x" (by decide) (by decide)

/-! ### C6 -/

/-- C6 (amended): in fold mode pull aborts unless at least two
changelists survive the filter; the first committed revision carries no
`p4` metadata; and for a depot with changelists 1..10 and fold-start 5
the result is one initial revision representing changelists 1–5 with no
metadata followed by five revisions for changelists 6–10 carrying
metadata 6,7,8,9,10 respectively. -/
theorem pull_fold_mode (changes : List Nat) (startrev : Int) :
    (∀ (cs : List Nat) (s : Nat), foldFilter changes startrev = .ok (cs, s) →
      2 ≤ cs.length) ∧
    (∀ cs : List Nat, cs ≠ [] → (pullExtras true cs).head? = some none) ∧
    foldFilter [1, 2, 3, 4, 5, 6, 7, 8, 9, 10] 5 = .ok ([5, 6, 7, 8, 9, 10], 5) ∧
    pullExtras true [5, 6, 7, 8, 9, 10]
      = [none, some 6, some 7, some 8, some 9, some 10] := by
  refine ⟨?_, ?_, by rfl, by decide⟩
  · intro cs s h
    unfold foldFilter at h
    split at h
    · split at h
      · exact absurd h (by simp)
      · split at h
        · exact absurd h (by simp)
        · next hlen =>
          rw [Except.ok.injEq, Prod.mk.injEq] at h
          obtain ⟨h1, -⟩ := h
          subst h1
          omega
    · split at h
      · exact absurd h (by simp)
      · split at h
        · exact absurd h (by simp)
        · split at h
          · exact absurd h (by simp)
          · next hlen =>
            rw [Except.ok.injEq, Prod.mk.injEq] at h
            obtain ⟨h1, -⟩ := h
            subst h1
            omega
  · intro cs hcs
    cases cs with
    | nil => exact absurd rfl hcs
    | cons c t => rfl

/-- Witness for C6 instantiating the abort bound at the 1..10 depot. -/
theorem pull_fold_mode_witness :
    2 ≤ ([5, 6, 7, 8, 9, 10] : List Nat).length :=
  (pull_fold_mode [1, 2, 3, 4, 5, 6, 7, 8, 9, 10] 5).1 [5, 6, 7, 8, 9, 10] 5
    (pull_fold_mode [1, 2, 3, 4, 5, 6, 7, 8, 9, 10] 5).2.2.1

/-- C6 counterexample: with fold-start 5 on depot changelists 1..10 the
code commits five subsequent revisions with metadata 6,7,8,9,10 — not
four as the claim states. -/
theorem pull_fold_counterexample :
    ((pullExtras true [5, 6, 7, 8, 9, 10]).drop 1).length = 5 ∧
    ¬ ((pullExtras true [5, 6, 7, 8, 9, 10]).drop 1).length = 4 ∧
    (pullExtras true [5, 6, 7, 8, 9, 10]).drop 1
      = [some 6, some 7, some 8, some 9, some 10] := by decide

/-! ### Lemmas: batching -/

theorem rangeStep_zero (i T : Nat) : rangeStep i 0 T = [] := by
  unfold rangeStep
  by_cases h : T = 0
  · rw [dif_pos h]
  · rw [dif_neg h, if_neg (by omega)]

theorem rangeStep_length_aux {T : Nat} (hT : 1 ≤ T) :
    ∀ (d i N : Nat), N - i ≤ d →
      (rangeStep i N T).length = (N - i + T - 1) / T := by
  intro d
  induction d with
  | zero =>
    intro i N h
    unfold rangeStep
    rw [dif_neg (by omega), if_neg (by omega : ¬ i < N)]
    rw [show N - i = 0 from by omega]
    rw [List.length_nil]
    symm
    exact Nat.div_eq_of_lt (by omega)
  | succ d ih =>
    intro i N h
    unfold rangeStep
    rw [dif_neg (by omega)]
    by_cases hiN : i < N
    · rw [if_pos hiN]
      rw [List.length_cons, ih (i + T) N (by omega)]
      by_cases hle : N - i ≤ T
      · rw [show N - (i + T) = 0 from by omega]
        rw [Nat.div_eq_of_lt (by omega : 0 + T - 1 < T)]
        rw [show N - i + T - 1 = (N - i - 1) + T from by omega]
        rw [Nat.add_div_right _ (by omega)]
        rw [Nat.div_eq_of_lt (by omega : N - i - 1 < T)]
      · rw [show N - (i + T) + T - 1 = N - i - 1 from by omega]
        rw [show N - i + T - 1 = (N - i - 1) + T from by omega]
        rw [Nat.add_div_right _ (by omega)]
    · rw [if_neg hiN]
      rw [List.length_nil, show N - i = 0 from by omega]
      symm
      exact Nat.div_eq_of_lt (by omega)

theorem batchStarts_length {T : Nat} (hT : 1 ≤ T) (N : Nat) :
    (batchStarts N T).length = numBatches N T := by
  unfold batchStarts numBatches
  by_cases hN : N = 0
  · subst hN
    rw [rangeStep_zero]
    simp
  · cases hr : rangeStep 0 N T with
    | nil =>
      exfalso
      unfold rangeStep at hr
      rw [dif_neg (by omega), if_pos (by omega)] at hr
      cases hr
    | cons a l =>
      simp only
      rw [if_neg hN, ← hr, rangeStep_length_aux hT N 0 N (by omega)]
      rw [show N - 0 = N from by omega]

theorem rangeStep_slices {α : Type} {T : Nat} (hT : 1 ≤ T) (l : List α) :
    ∀ (d i : Nat), l.length - i ≤ d →
      ((rangeStep i l.length T).map (fun s => (l.drop s).take T)).flatten = l.drop i := by
  intro d
  induction d with
  | zero =>
    intro i h
    unfold rangeStep
    rw [dif_neg (by omega), if_neg (by omega : ¬ i < l.length)]
    rw [List.map_nil, List.flatten_nil]
    symm
    exact List.drop_eq_nil_of_le (by omega)
  | succ d ih =>
    intro i h
    unfold rangeStep
    rw [dif_neg (by omega)]
    by_cases hiN : i < l.length
    · rw [if_pos hiN]
      rw [List.map_cons, List.flatten_cons, ih (i + T) (by omega)]
      have hdd : (l.drop i).drop T = l.drop (i + T) := List.drop_drop T i l
      rw [← hdd]
      exact List.take_append_drop T (l.drop i)
    · rw [if_neg hiN]
      rw [List.map_nil, List.flatten_nil]
      symm
      exact List.drop_eq_nil_of_le (by omega)

theorem flatten_map_flatMap {α β : Type} (g : α → List β) (ls : List (List α)) :
    (ls.map (fun s => s.flatMap g)).flatten = ls.flatten.flatMap g := by
  induction ls with
  | nil => rfl
  | cons s t ih => simp [ih]

theorem runModel_nil {α : Type} (depot : List String → List α) (T : Nat) :
    runModel depot T [] = (depot [], 1) := by
  unfold runModel batchStarts
  rw [show (([] : List String)).length = 0 from rfl, rangeStep_zero]
  simp

theorem runModel_flatMap {α : Type} {T : Nat} (hT : 1 ≤ T) (g : String → List α)
    (files : List String) :
    (runModel (fun fs => fs.flatMap g) T files).1 = files.flatMap g := by
  unfold runModel batchStarts
  simp only
  cases hr : rangeStep 0 files.length T with
  | nil =>
    have hlen : files.length = 0 := by
      by_contra hne
      unfold rangeStep at hr
      rw [dif_neg (by omega), if_pos (by omega)] at hr
      cases hr
    have hfe : files = [] := List.length_eq_zero.1 hlen
    subst hfe
    simp
  | cons a l =>
    simp only
    rw [← hr]
    calc ((rangeStep 0 files.length T).map
            (fun i => ((files.drop i).take T).flatMap g)).flatten
        = (((rangeStep 0 files.length T).map
            (fun i => (files.drop i).take T)).map (fun s => s.flatMap g)).flatten := by
          rw [List.map_map]; rfl
      _ = ((rangeStep 0 files.length T).map
            (fun i => (files.drop i).take T)).flatten.flatMap g :=
          flatten_map_flatMap g _
      _ = (files.drop 0).flatMap g := by
          rw [rangeStep_slices hT files files.length 0 (by omega)]
      _ = files.flatMap g := by rw [List.drop_zero]

theorem flatMap_length_one {α : Type} {g : String → List α} (h1 : ∀ f, (g f).length = 1) :
    ∀ fs : List String, (fs.flatMap g).length = fs.length := by
  intro fs
  induction fs with
  | nil => rfl
  | cons f t ih =>
    rw [List.flatMap_cons, List.length_append, h1 f, ih, List.length_cons]
    omega

theorem whereProcess_length (root : String) :
    ∀ (replies : List WRec) (acc res : List (String × String)),
      whereProcess root replies acc = .ok res → res.length ≤ acc.length + replies.length := by
  intro replies
  induction replies with
  | nil =>
    intro acc res h
    injection h with h
    subst h
    simp
  | cons w ws ih =>
    intro acc res h
    unfold whereProcess at h
    cases hs : whereStep root acc w with
    | error e => rw [hs] at h; cases h
    | ok acc2 =>
      rw [hs] at h
      have hlen : acc2.length ≤ acc.length + 1 := by
        unfold whereStep at hs
        split at hs
        · split at hs
          · injection hs with hs; subst hs; omega
          · cases hs
        · split at hs
          · injection hs with hs; subst hs; omega
          · split at hs
            · injection hs with hs
              subst hs
              rw [List.length_append]
              simp
            · cases hs
      have := ih acc2 res h
      rw [List.length_cons]
      omega

/-! ### C5 -/

/-- C5: for `N` uncached paths and batch threshold `T ≥ 1` the run loop
issues `ceil(N/T)` depot queries — exactly one, with no path arguments,
when `N = 0`; batching never changes the reply records, only the call
count; when the depot returns one record per requested file the resolver
returns at most `N` results; and a reply count different from `N` makes
`where` abort rather than return a result. -/
theorem where_batching (root : String) (T : Nat) (hT : 1 ≤ T)
    (g : String → List WRec) (flist : List String) :
    (runModel (fun fs => fs.flatMap g) T flist).2 = numBatches flist.length T ∧
    numBatches 0 T = 1 ∧
    (∀ depot : List String → List WRec, runModel depot T [] = (depot [], 1)) ∧
    (runModel (fun fs => fs.flatMap g) T flist).1 = flist.flatMap g ∧
    ((∀ f, (g f).length = 1) →
      ∀ res, whereResolve root flist (runModel (fun fs => fs.flatMap g) T flist).1 = .ok res →
        res.length ≤ flist.length) ∧
    (∀ replies : List WRec, replies.length ≠ flist.length →
      ∀ res, whereResolve root flist replies ≠ .ok res) := by
  have hmap := runModel_flatMap hT g flist
  refine ⟨?_, by simp [numBatches], fun depot => runModel_nil depot T, hmap, ?_, ?_⟩
  · unfold runModel
    simp only
    exact batchStarts_length hT flist.length
  · intro h1 res hres
    rw [hmap] at hres
    unfold whereResolve at hres
    cases hp : whereProcess root (flist.flatMap g) [] with
    | error e =>
      rw [hp] at hres
      simp at hres
    | ok res0 =>
      rw [hp] at hres
      simp only [] at hres
      split at hres
      · simp at hres
      · split at hres
        · simp at hres
        · rw [Except.ok.injEq] at hres
          subst hres
          have hlen := whereProcess_length root (flist.flatMap g) [] res0 hp
          rw [List.length_nil, flatMap_length_one h1 flist] at hlen
          omega
  · intro replies hne res hres
    unfold whereResolve at hres
    cases hp : whereProcess root replies [] with
    | error e =>
      rw [hp] at hres
      simp at hres
    | ok res0 =>
      rw [hp] at hres
      simp only [] at hres
      split at hres
      · simp at hres
      · split at hres
        · simp at hres
        · next h2 h3 => omega

/-- The depot oracle used by the C5 witness: one mapped record per
file. -/
def oneRec : String → List WRec :=
  fun f => [{ isErr := false, severity := 0, generic := 0, data := "",
              depotFile := f, path := f, unmap := false }]

/-- Witness for C5: three files with threshold two make two batches. -/
theorem where_batching_witness :
    (runModel (fun fs => fs.flatMap oneRec) 2 ["a", "b", "c"]).2 = numBatches 3 2 :=
  (where_batching "r" 2 (by omega) oneRec ["a", "b", "c"]).1

/-! ### Lemmas: marker matching -/

theorem stripPref_append (p rest : List Char) : stripPref p (p ++ rest) = some rest := by
  induction p with
  | nil => rfl
  | cons c t ih => simp [stripPref, ih]

theorem takeHex_exact {h : List Char} (hhex : ∀ c ∈ h, isHexc c = true) (rest : List Char) :
    takeHex h.length (h ++ rest) = some (h, rest) := by
  induction h with
  | nil => rfl
  | cons c t ih =>
    rw [List.length_cons, List.cons_append]
    show takeHex (t.length + 1) (c :: (t ++ rest)) = some (c :: t, rest)
    simp only [takeHex]
    rw [if_pos (hhex c (List.mem_cons_self c t))]
    rw [ih (fun c2 m => hhex c2 (List.mem_cons_of_mem c m))]
    rfl

theorem matchMarkerAt_none_of_head {cs : List Char} (h : ¬ cs.head? = some '\x7b') :
    matchMarkerAt cs = none := by
  cases cs with
  | nil => rfl
  | cons c rest =>
    have hc : c ≠ '\x7b' := fun e => h (by rw [e, List.head?_cons])
    have hs : stripPref "\x7b\x7bmercurial ".data (c :: rest) = none := by
      show stripPref ('\x7b' :: "\x7bmercurial ".data) (c :: rest) = none
      simp only [stripPref]
      rw [if_neg hc]
    simp [matchMarkerAt, hs]

theorem matchMarkerAt_none_of_second {c2 : Char} (h : c2 ≠ '\x7b') (rest : List Char) :
    matchMarkerAt ('\x7b' :: c2 :: rest) = none := by
  have hs : stripPref "\x7b\x7bmercurial ".data ('\x7b' :: c2 :: rest) = none := by
    show stripPref ('\x7b' :: '\x7b' :: "mercurial ".data) ('\x7b' :: c2 :: rest) = none
    simp only [stripPref]
    simp [h]
  simp [matchMarkerAt, hs]

theorem countMarkers_append_no_brace {xs ys : List Char} (h : '\x7b' ∉ xs) :
    countMarkers (xs ++ ys) = countMarkers ys := by
  induction xs with
  | nil => rfl
  | cons c t ih =>
    have hc : c ≠ '\x7b' := fun e => h (List.mem_cons.2 (Or.inl e.symm))
    have ht : '\x7b' ∉ t := fun m => h (List.mem_cons_of_mem c m)
    rw [List.cons_append]
    simp only [countMarkers]
    rw [matchMarkerAt_none_of_head (by rw [List.head?_cons]; simp [hc])]
    simp [ih ht]

theorem countMarkers_no_brace {xs : List Char} (h : '\x7b' ∉ xs) : countMarkers xs = 0 := by
  have h2 : countMarkers (xs ++ []) = countMarkers [] := countMarkers_append_no_brace h
  rw [List.append_nil] at h2
  rw [h2]
  rfl

theorem countMarkers_region {rest1 : List Char} (hrest : '\x7b' ∉ rest1)
    (hmatch : (matchMarkerAt ('\x7b' :: '\x7b' :: rest1)).isSome = true) :
    countMarkers ('\x7b' :: '\x7b' :: rest1) = 1 := by
  have h2 : countMarkers ('\x7b' :: rest1) = 0 := by
    cases rest1 with
    | nil => decide
    | cons c2 t2 =>
      have hc2 : c2 ≠ '\x7b' := fun e => hrest (List.mem_cons.2 (Or.inl e.symm))
      have ha : countMarkers ('\x7b' :: c2 :: t2)
          = (if (matchMarkerAt ('\x7b' :: c2 :: t2)).isSome then 1 else 0)
            + countMarkers (c2 :: t2) := rfl
      rw [ha, matchMarkerAt_none_of_second hc2, countMarkers_no_brace hrest]
      rfl
  have h1 : countMarkers ('\x7b' :: '\x7b' :: rest1)
      = (if (matchMarkerAt ('\x7b' :: '\x7b' :: rest1)).isSome then 1 else 0)
        + countMarkers ('\x7b' :: rest1) := rfl
  rw [h1, h2, hmatch]
  rfl

theorem matchMarkerAt_single {h1 : String} (hlen : h1.data.length = 40)
    (hhex : ∀ c ∈ h1.data, isHexc c = true) :
    matchMarkerAt ("\x7b\x7bmercurial ".data ++ (h1.data ++ ('\x7d' :: '\x7d' :: [ '\n' ])))
      = some (h1, none) := by
  unfold matchMarkerAt
  rw [stripPref_append]
  simp only [Option.bind_eq_bind, Option.some_bind]
  rw [show (40 : Nat) = h1.data.length from hlen.symm, takeHex_exact hhex]
  simp only [Option.bind_eq_bind, Option.some_bind]
  rfl

theorem matchMarkerAt_pair {h1 h2 : String} (hlen1 : h1.data.length = 40)
    (hhex1 : ∀ c ∈ h1.data, isHexc c = true) (hlen2 : h2.data.length = 40)
    (hhex2 : ∀ c ∈ h2.data, isHexc c = true) :
    matchMarkerAt ("\x7b\x7bmercurial ".data
        ++ (h1.data ++ (':' :: (h2.data ++ ('\x7d' :: '\x7d' :: [ '\n' ])))))
      = some (h1, some h2) := by
  unfold matchMarkerAt
  rw [stripPref_append]
  simp only [Option.bind_eq_bind, Option.some_bind]
  nth_rewrite 1 [show (40 : Nat) = h1.data.length from hlen1.symm]
  rw [takeHex_exact hhex1]
  simp only [Option.bind_eq_bind, Option.some_bind]
  rw [show (40 : Nat) = h2.data.length from hlen2.symm]
  rw [takeHex_exact hhex2]
  rfl

theorem markerIds_spec {nodes : List String} (hne : nodes ≠ []) :
    ∃ last, nodes.getLast? = some last ∧
      ((nodes.length = 1 ∧ markerIds nodes = [last]) ∨
       (1 < nodes.length ∧ ∃ first, nodes.head? = some first ∧
         markerIds nodes = [first, last])) := by
  obtain ⟨last, hlast⟩ : ∃ l, nodes.getLast? = some l := by
    cases hg : nodes.getLast? with
    | none => exact absurd (List.getLast?_eq_none_iff.1 hg) hne
    | some l => exact ⟨l, rfl⟩
  refine ⟨last, hlast, ?_⟩
  by_cases h1 : 1 < nodes.length
  · right
    refine ⟨h1, ?_⟩
    obtain ⟨first, hfirst⟩ : ∃ f, nodes.head? = some f := by
      cases nodes with
      | nil => exact absurd rfl hne
      | cons a t => exact ⟨a, rfl⟩
    refine ⟨first, hfirst, ?_⟩
    unfold markerIds
    rw [if_pos h1, List.headD_eq_head?_getD, hfirst,
      List.getLastD_eq_getLast?, hlast]
    rfl
  · left
    have hlen : nodes.length = 1 := by
      cases nodes with
      | nil => exact absurd rfl hne
      | cons a t =>
        rw [List.length_cons] at h1 ⊢
        omega
    refine ⟨hlen, ?_⟩
    unfold markerIds
    rw [if_neg h1, List.getLastD_eq_getLast?, hlast]
    rfl

/-! ### C3 -/

/-- C3 (amended): for every non-empty exported range the description is
the revision messages joined by the fixed five-character separator line
`* * *` (the join string is newline, that line, newline), followed by
exactly one revision-range marker — encoding the first and last
identities of the range, or the single identity for a one-revision range
— and the marker (with the closing newline) stands at the end of the
description.  Exactness of the count is proved for well-formed inputs:
40-char lowercase-hex identities and messages free of the marker's
opening brace. -/
theorem push_desc_spec (msgs nodes : List String) (hne : nodes ≠ [])
    (hids : ∀ n ∈ markerIds nodes, n.data.length = 40 ∧ ∀ c ∈ n.data, isHexc c = true)
    (hbody : '\x7b' ∉ (String.intercalate descSep msgs).data) :
    pushDesc msgs nodes
      = String.intercalate descSep msgs ++ "\n\n" ++ markerText (markerIds nodes) ++ "\n" ∧
    descSep = "\n" ++ sepLine ++ "\n" ∧
    sepLine.length = 5 ∧
    (∃ last, nodes.getLast? = some last ∧
      ((nodes.length = 1 ∧ markerIds nodes = [last]) ∨
       (1 < nodes.length ∧ ∃ first, nodes.head? = some first ∧
         markerIds nodes = [first, last]))) ∧
    countMarkers (pushDesc msgs nodes).data = 1 := by
  refine ⟨rfl, rfl, rfl, markerIds_spec hne, ?_⟩
  have hB : '\x7b' ∉ ((String.intercalate descSep msgs).data ++ [ '\n', '\n' ]) := by
    intro hm
    rcases List.mem_append.1 hm with h | h
    · exact hbody h
    · revert h; decide
  have hdata : (pushDesc msgs nodes).data
      = ((String.intercalate descSep msgs).data ++ [ '\n', '\n' ])
        ++ ((markerText (markerIds nodes)).data ++ [ '\n' ]) := by
    rw [show (pushDesc msgs nodes).data
        = (((String.intercalate descSep msgs).data ++ [ '\n', '\n' ])
            ++ (markerText (markerIds nodes)).data) ++ [ '\n' ] from rfl]
    rw [List.append_assoc]
  rw [hdata, countMarkers_append_no_brace hB]
  obtain ⟨last, hlast, hcase⟩ := markerIds_spec hne
  rcases hcase with ⟨-, hml⟩ | ⟨-, first, hfirst, hml⟩
  · have hlast40 := hids last (by rw [hml]; exact List.mem_cons_self _ _)
    have hshape : (markerText (markerIds nodes)).data ++ [ '\n' ]
        = '\x7b' :: '\x7b' ::
            ("mercurial ".data ++ (last.data ++ ('\x7d' :: '\x7d' :: [ '\n' ]))) := by
      rw [hml]
      show ((("\x7b\x7bmercurial ".data ++ last.data) ++ "\x7d\x7d".data) ++ [ '\n' ]) = _
      simp only [List.append_assoc]
      rfl
    have hW : '\x7b' ∉ ("mercurial ".data ++ (last.data ++ ('\x7d' :: '\x7d' :: [ '\n' ]))) := by
      intro hm
      rcases List.mem_append.1 hm with h | h
      · revert h; decide
      · rcases List.mem_append.1 h with h | h
        · exact absurd (hlast40.2 _ h) (by decide)
        · revert h; decide
    rw [hshape]
    refine countMarkers_region hW ?_
    rw [show matchMarkerAt ('\x7b' :: '\x7b' ::
          ("mercurial ".data ++ (last.data ++ ('\x7d' :: '\x7d' :: [ '\n' ]))))
        = some (last, none) from matchMarkerAt_single hlast40.1 hlast40.2]
    rfl
  · have hfirst40 := hids first (by rw [hml]; exact List.mem_cons_self _ _)
    have hlast40 := hids last (by rw [hml]; exact List.mem_cons_of_mem _ (List.mem_cons_self _ _))
    have hshape : (markerText (markerIds nodes)).data ++ [ '\n' ]
        = '\x7b' :: '\x7b' :: ("mercurial ".data
            ++ (first.data ++ (':' :: (last.data ++ ('\x7d' :: '\x7d' :: [ '\n' ]))))) := by
      rw [hml]
      show ((("\x7b\x7bmercurial ".data ++ ((first.data ++ [ ':' ]) ++ last.data))
          ++ "\x7d\x7d".data) ++ [ '\n' ]) = _
      simp only [List.append_assoc]
      rfl
    have hW : '\x7b' ∉ ("mercurial ".data
        ++ (first.data ++ (':' :: (last.data ++ ('\x7d' :: '\x7d' :: [ '\n' ]))))) := by
      intro hm
      rcases List.mem_append.1 hm with h | h
      · revert h; decide
      · rcases List.mem_append.1 h with h | h
        · exact absurd (hfirst40.2 _ h) (by decide)
        · rcases List.mem_cons.1 h with h | h
          · exact absurd h (by decide)
          · rcases List.mem_append.1 h with h | h
            · exact absurd (hlast40.2 _ h) (by decide)
            · revert h; decide
    rw [hshape]
    refine countMarkers_region hW ?_
    rw [show matchMarkerAt ('\x7b' :: '\x7b' :: ("mercurial ".data
          ++ (first.data ++ (':' :: (last.data ++ ('\x7d' :: '\x7d' :: [ '\n' ]))))))
        = some (first, some last)
        from matchMarkerAt_pair hfirst40.1 hfirst40.2 hlast40.1 hlast40.2]
    rfl

/-- Witness for C3 at a one-message, one-revision range. -/
theorem push_desc_spec_witness :
    countMarkers (pushDesc ["m1"]
      ["aaaaaaaaaaaaaaaaaaaaaaaaaaaaaaaaaaaaaaaa"]).data = 1 :=
  (push_desc_spec ["m1"] ["aaaaaaaaaaaaaaaaaaaaaaaaaaaaaaaaaaaaaaaa"]
    (by decide) (by decide) (by decide)).2.2.2.2

/-- C3 counterexample: the separator line of the source is `* * *`, five
characters, not three; at a concrete two-message range the description
shows that separator line. -/
theorem push_desc_counterexample :
    sepLine.length = 5 ∧ ¬ sepLine.length = 3 ∧
    pushDesc ["a", "b"] ["c"] = "a\n* * *\nb\n\n\x7b\x7bmercurial c\x7d\x7d\n" := by
  decide

end Perfarce
